import Mathlib

/-!
Verification of the RSA demonstration program (`low_end_lappy.py`).

The development shallowly embeds the number-theoretic core of the program:
- `is_prime`, `get_next_prime`, `mod_inverse` (number-theory utilities),
- `SimpleRSA.generate_keypair` / `encrypt` / `decrypt` (keypair engine),
- `ClassicalFactorizer.trial_division` / `pollards_rho` (factorization engine),
- the text↔integer codec `text_to_int` / `int_to_text`,
- the key-recovery / decryption step of `main` (attack orchestrator).

Python integers are modelled as `ℤ` where signs matter (`is_prime`,
`mod_inverse`) and as `ℕ` where the program only ever passes non-negative
values (keys, moduli, factors, messages).  Loops whose termination is not
structural are given an explicit fuel argument; in every case a lemma below
shows the chosen fuel is large enough that the fuel-free Python loop and the
fuelled Lean function agree on all inputs the program can reach.
-/

namespace LowEndLappy

/-! ### Number-theory utilities -/

/-- The odd-divisor scan of `is_prime`: Python's
`for i in range(3, int(math.sqrt(n)) + 1, 2)` visits exactly the odd `i ≥ 3`
with `i ≤ ⌊√n⌋`, i.e. with `i * i ≤ n`; the latter form keeps the definition
kernel-computable.  `fuel` bounds the number of loop iterations; `is_primeNat`
passes `n`, which is more than enough (the scan stops once `i * i > n`). -/
def odd_div_scan (n : ℕ) : ℕ → ℕ → Bool
  | 0, _ => true
  | fuel + 1, i =>
    if i * i ≤ n then
      (if n % i = 0 then false else odd_div_scan n fuel (i + 2))
    else true

/-- `is_prime` restricted to naturals (Python's `is_prime` after the `n < 2`
sign check): trial division by 2 and then by the odd numbers up to `⌊√n⌋`. -/
def is_primeNat (n : ℕ) : Bool :=
  if n < 2 then false
  else if n = 2 then true
  else if n % 2 = 0 then false
  else odd_div_scan n n 3

/-- `is_prime(n)` from the source, on Python integers (`ℤ`): `False` for
`n < 2`, otherwise deterministic trial division up to `⌊√n⌋`. -/
def is_prime (n : ℤ) : Bool :=
  if n < 2 then false else is_primeNat n.toNat

/-- `get_next_prime(n)`'s `while not is_prime(n): n += 1` loop, fuelled.
When the fuel runs out the current `n` is returned; `get_next_prime` passes
fuel `n + 3`, which `get_next_prime_fuel_spec` shows always suffices. -/
def get_next_prime_fuel : ℕ → ℕ → ℕ
  | 0, n => n
  | fuel + 1, n => if is_prime (n : ℤ) then n else get_next_prime_fuel fuel (n + 1)

/-- `get_next_prime(n)`: the smallest prime `≥ n`. -/
def get_next_prime (n : ℕ) : ℕ :=
  get_next_prime_fuel (n + 3) n

/-- The inner `extended_gcd(a, b)` of `mod_inverse`, fuelled: the recursion
`extended_gcd(b % a, a)` strictly decreases `|a|`, so fuel `|a| + 1` (what
`mod_inverse` supplies, via `|m| + 1 > |a % m|`) reproduces the Python
recursion exactly on the non-negative arguments it is called with.
Returns `(gcd, x, y)` with `a*x + b*y = gcd`. -/
def extended_gcd : ℕ → ℤ → ℤ → ℤ × ℤ × ℤ
  | 0, _, b => (b, 0, 1)
  | fuel + 1, a, b =>
    if a = 0 then (b, 0, 1)
    else
      let r := extended_gcd fuel (b % a) a
      (r.1, r.2.2 - (b / a) * r.2.1, r.2.1)

/-- `mod_inverse(a, m)` from the source.  `none` models the raised
`ValueError` (`NoInverseError`) when `gcd(a, m) ≠ 1`; otherwise the Bézout
coefficient of `a % m` is normalised into `[0, m)` by `(x % m + m) % m`.
For a positive modulus Python's `%` agrees with `Int.emod`. -/
def mod_inverse (a m : ℤ) : Option ℤ :=
  if Int.gcd a m ≠ 1 then none
  else
    let r := extended_gcd (m.natAbs + 1) (a % m) m
    some ((r.2.1 % m + m) % m)

/-! ### RSA keypair engine (`SimpleRSA`) -/

/-- The `while math.gcd(e, phi_n) != 1: e = get_next_prime(e + 1)` loop of
`generate_keypair`, fuelled.  `generate_keypair` passes fuel `phi_n + 2`;
`find_e_spec` shows this suffices (the loop stops no later than the first
prime exceeding `phi_n`). -/
def find_e (phi_n : ℕ) : ℕ → ℕ → ℕ
  | 0, e => e
  | fuel + 1, e => if Nat.gcd e phi_n = 1 then e else find_e phi_n fuel (get_next_prime (e + 1))

/-- `SimpleRSA.generate_keypair(p, q)`: `none` models the two raised
`ValueError`s (non-prime input, `p = q`); otherwise the pair
`((n, e), (n, d))` of public and private key is returned.  `d` is the
(non-negative) canonical representative produced by `mod_inverse`. -/
def generate_keypair (p q : ℕ) : Option ((ℕ × ℕ) × (ℕ × ℕ)) :=
  if ¬ (is_prime (p : ℤ) = true ∧ is_prime (q : ℤ) = true) then none
  else if p = q then none
  else
    let n := p * q
    let phi_n := (p - 1) * (q - 1)
    let e := find_e phi_n (phi_n + 2) (if 65537 ≥ phi_n then 3 else 65537)
    match mod_inverse (e : ℤ) (phi_n : ℤ) with
    | some d => some ((n, e), (n, d.toNat))
    | none => none

/-- `SimpleRSA.encrypt(message_int)` given the public key `(n, e)`: `none`
models the raised `MessageTooLargeError` when `message_int ≥ n`; otherwise
`pow(message_int, e, n)`. -/
def encrypt (public_key : ℕ × ℕ) (message_int : ℕ) : Option ℕ :=
  if message_int ≥ public_key.1 then none
  else some (message_int ^ public_key.2 % public_key.1)

/-- `SimpleRSA.decrypt(ciphertext)` given the private key `(n, d)`:
`pow(ciphertext, d, n)`, with no range check on the ciphertext. -/
def decrypt (private_key : ℕ × ℕ) (ciphertext : ℕ) : ℕ :=
  ciphertext ^ private_key.2 % private_key.1
/-! ### Factorization engine (`ClassicalFactorizer`) -/

/-- The `for i in range(3, limit, 2)` scan of `trial_division`, fuelled with
the exact iteration count of the Python range (`(limit - 2) / 2`): candidates
`i, i+2, …` are tried while fuel lasts; the first divisor found is returned
with its cofactor. -/
def td_scan (n : ℕ) : ℕ → ℕ → Option (ℕ × ℕ)
  | 0, _ => none
  | fuel + 1, i => if n % i = 0 then some (i, n / i) else td_scan n fuel (i + 2)

/-- `ClassicalFactorizer.trial_division(limit)` on modulus `n`: even `n`
short-circuits to the factor 2; otherwise odd candidates `3, 5, …` strictly
below `limit` are scanned.  (`None`, the "not found" outcome, is `none`; the
source's default `limit = min(10000, int(sqrt(n)) + 1)` is chosen by the
caller and is not needed by the claims.) -/
def trial_division (n limit : ℕ) : Option (ℕ × ℕ) :=
  if n % 2 = 0 then some (2, n / 2)
  else td_scan n ((limit - 2) / 2) 3

/-- The polynomial map `f(x) = (x*x + 1) % n` of `pollards_rho`. -/
def rho_f (n x : ℕ) : ℕ := (x * x + 1) % n

/-- The Floyd (tortoise-and-hare) loop of `pollards_rho`:
`while d == 1 and iterations < max_iterations` with
`x = f(x); y = f(f(y)); d = gcd(|x - y|, n)`.  The fuel is exactly the
remaining iteration budget, so `rho_loop n max_iterations x0 x0` is the final
value of `d` (initially 1).  `Nat.dist` is Python's `abs(x - y)`. -/
def rho_loop (n : ℕ) : ℕ → ℕ → ℕ → ℕ
  | 0, _, _ => 1
  | fuel + 1, x, y =>
    if Nat.gcd (Nat.dist (rho_f n x) (rho_f n (rho_f n y))) n = 1 then
      rho_loop n fuel (rho_f n x) (rho_f n (rho_f n y))
    else Nat.gcd (Nat.dist (rho_f n x) (rho_f n (rho_f n y))) n

/-- `ClassicalFactorizer.pollards_rho(max_iterations)` on modulus `n`.
`x0` is the injectable random seed (`random.randint(2, n - 1)` in the
source); even `n` short-circuits to the factor 2 before the seed is drawn.
A factor pair is returned only when the final `d` is neither 1 nor `n`. -/
def pollards_rho (n max_iterations x0 : ℕ) : Option (ℕ × ℕ) :=
  if n % 2 = 0 then some (2, n / 2)
  else
    if rho_loop n max_iterations x0 x0 ≠ 1 ∧ rho_loop n max_iterations x0 x0 ≠ n then
      some (rho_loop n max_iterations x0 x0, n / rho_loop n max_iterations x0 x0)
    else none

/-- One state of the Floyd loop of `pollards_rho`, used to express its
termination behaviour as a small-step machine: the loop variables `x`, `y`,
`d` and the iteration counter. -/
structure RhoState where
  x : ℕ
  y : ℕ
  d : ℕ
  iters : ℕ
deriving DecidableEq

/-- One pass of `while d == 1 and iterations < max_iterations`: when the
guard holds the loop body updates `x`, `y`, `d` and increments the counter;
otherwise the state is left unchanged (the loop has exited). -/
def rho_step (n max_iterations : ℕ) (s : RhoState) : RhoState :=
  if s.d = 1 ∧ s.iters < max_iterations then
    ⟨rho_f n s.x, rho_f n (rho_f n s.y),
      Nat.gcd (Nat.dist (rho_f n s.x) (rho_f n (rho_f n s.y))) n, s.iters + 1⟩
  else s

/-- The state of the Floyd loop on entry: `x = y = x0`, `d = 1`, zero
iterations executed. -/
def rho_init (x0 : ℕ) : RhoState := ⟨x0, x0, 1, 0⟩

/-! ### Text ↔ integer codec

A Python `str` is modelled as the list of its Unicode scalar values
(naturals; `ValidScalar` carves out exactly the code points a `str` that
`encode('utf-8')` accepts can contain).  `text.encode('utf-8')` and
`bytes.decode('utf-8')` are modelled by `utf8Encode` / `utf8Decode`
following the UTF-8 format: `utf8Decode` rejects stray or missing
continuation bytes, overlong encodings, surrogates and out-of-range values,
as Python's decoder does. -/

/-- A Unicode scalar value: any code point except the surrogate range. -/
def ValidScalar (c : ℕ) : Prop := c < 0xD800 ∨ (0xE000 ≤ c ∧ c < 0x110000)

instance ValidScalar.instDecidable (c : ℕ) : Decidable (ValidScalar c) :=
  inferInstanceAs (Decidable (c < 0xD800 ∨ (0xE000 ≤ c ∧ c < 0x110000)))

/-- UTF-8 encoding of a single scalar value (1 to 4 bytes). -/
def utf8EncodeChar (c : ℕ) : List ℕ :=
  if c < 0x80 then [c]
  else if c < 0x800 then [0xC0 + c / 64, 0x80 + c % 64]
  else if c < 0x10000 then [0xE0 + c / 4096, 0x80 + c / 64 % 64, 0x80 + c % 64]
  else [0xF0 + c / 262144, 0x80 + c / 4096 % 64, 0x80 + c / 64 % 64, 0x80 + c % 64]

/-- `text.encode('utf-8')` over the scalar values of the text. -/
def utf8Encode : List ℕ → List ℕ
  | [] => []
  | c :: cs => utf8EncodeChar c ++ utf8Encode cs

/-- One step of `bytes.decode('utf-8')`: reads a single UTF-8 encoded
scalar value off the front of the byte string, returning it with the unread
remainder, or `none` on malformed input (stray or missing continuation
bytes, overlong encodings, surrogates, out-of-range values), as Python's
decoder rejects them. -/
def utf8DecodeChar : List ℕ → Option (ℕ × List ℕ)
  | [] => none
  | b :: rest =>
    if b < 0x80 then some (b, rest)
    else if b < 0xC2 then none
    else if b < 0xE0 then
      match rest with
      | b1 :: rest' =>
        if 0x80 ≤ b1 ∧ b1 < 0xC0 then
          some ((b - 0xC0) * 64 + (b1 - 0x80), rest')
        else none
      | [] => none
    else if b < 0xF0 then
      match rest with
      | b1 :: b2 :: rest' =>
        if (0x80 ≤ b1 ∧ b1 < 0xC0) ∧ (0x80 ≤ b2 ∧ b2 < 0xC0) then
          if 0x800 ≤ (b - 0xE0) * 4096 + (b1 - 0x80) * 64 + (b2 - 0x80) ∧
              ¬ (0xD800 ≤ (b - 0xE0) * 4096 + (b1 - 0x80) * 64 + (b2 - 0x80) ∧
                (b - 0xE0) * 4096 + (b1 - 0x80) * 64 + (b2 - 0x80) < 0xE000) then
            some ((b - 0xE0) * 4096 + (b1 - 0x80) * 64 + (b2 - 0x80), rest')
          else none
        else none
      | _ => none
    else if b < 0xF5 then
      match rest with
      | b1 :: b2 :: b3 :: rest' =>
        if (0x80 ≤ b1 ∧ b1 < 0xC0) ∧ (0x80 ≤ b2 ∧ b2 < 0xC0) ∧ (0x80 ≤ b3 ∧ b3 < 0xC0) then
          if 0x10000 ≤
              (b - 0xF0) * 262144 + (b1 - 0x80) * 4096 + (b2 - 0x80) * 64 + (b3 - 0x80) ∧
              (b - 0xF0) * 262144 + (b1 - 0x80) * 4096 + (b2 - 0x80) * 64 + (b3 - 0x80) <
                0x110000 then
            some ((b - 0xF0) * 262144 + (b1 - 0x80) * 4096 + (b2 - 0x80) * 64 + (b3 - 0x80),
              rest')
          else none
        else none
      | _ => none
    else none

/-- The decoding loop of `bytes.decode('utf-8')`, fuelled: one unit of fuel
per decoded character.  `utf8Decode` passes the byte count, which suffices
because every character consumes at least one byte. -/
def utf8Decode_fuel : ℕ → List ℕ → Option (List ℕ)
  | _, [] => some []
  | 0, _ :: _ => none
  | fuel + 1, b :: rest =>
    match utf8DecodeChar (b :: rest) with
    | none => none
    | some (c, rest') => (utf8Decode_fuel fuel rest').map (fun s => c :: s)

/-- `bytes.decode('utf-8')`: `none` models the raised `UnicodeDecodeError`. -/
def utf8Decode (bs : List ℕ) : Option (List ℕ) := utf8Decode_fuel bs.length bs

/-- `int.from_bytes(bs, 'big')`. -/
def bytesToNat (bs : List ℕ) : ℕ := bs.foldl (fun acc b => acc * 256 + b) 0

/-- `n.to_bytes(len, 'big')` (big-endian, fixed length). -/
def natToBytesBE : ℕ → ℕ → List ℕ
  | 0, _ => []
  | len + 1, n => natToBytesBE len (n / 256) ++ [n % 256]

/-- Python `int.bit_length` on naturals, fuelled structurally:
`bit_length n = bit_length_fuel n n` (the recursion depth `⌊log₂ n⌋ + 1`
never exceeds `n` for `n ≥ 1`). -/
def bit_length_fuel : ℕ → ℕ → ℕ
  | 0, _ => 0
  | fuel + 1, n => if n = 0 then 0 else bit_length_fuel fuel (n / 2) + 1

/-- `n.bit_length()` for a non-negative Python int. -/
def bit_length (n : ℕ) : ℕ := bit_length_fuel n n

/-- `text_to_int(text)`: UTF-8 encode, then `int.from_bytes(…, 'big')`. -/
def text_to_int (text : List ℕ) : ℕ := bytesToNat (utf8Encode text)

/-- The scalar values of the sentinel string `"[Invalid characters]"`
returned by `int_to_text` when decoding fails. -/
def invalid_characters : List ℕ :=
  [91, 73, 110, 118, 97, 108, 105, 100, 32, 99, 104, 97, 114, 97, 99, 116,
    101, 114, 115, 93]

/-- `int_to_text(number)`: `""` for `number ≤ 0`; otherwise the minimal
big-endian byte string of length `(bit_length + 7) // 8` is UTF-8 decoded,
with decode failure mapped to the sentinel `"[Invalid characters]"`.
(The `OverflowError` branch of the source is unreachable: the chosen length
always accommodates the number.) -/
def int_to_text (number : ℤ) : List ℕ :=
  if number ≤ 0 then []
  else
    match utf8Decode (natToBytesBE ((bit_length number.toNat + 7) / 8) number.toNat) with
    | some s => s
    | none => invalid_characters

/-! ### Attack orchestrator: the key-recovery / decryption step of `main` -/

/-- Reason a run of the decryption step of `main` ends without a recovered
message: no factors were found (the `ATTACK FAILED` banner), or
`mod_inverse` raised during key reconstruction (the caught
`Error in key reconstruction` branch). -/
inductive FailReason where
  | noFactors : FailReason
  | keyReconstruction : FailReason
deriving DecidableEq

/-- Terminal outcome of the decryption step of `main`: either the decrypted
text (the `SUCCESS` state) or a failure with its reason (the `FAILED`
state). -/
inductive AttackOutcome where
  | success : List ℕ → AttackOutcome
  | failed : FailReason → AttackOutcome
deriving DecidableEq

/-- The `DECRYPTION` section of `main` (lines 239–265 of the source), given
the public data `(n, e, ciphertext)` and the factorizer's result: on factors
`(p', q')` it rebuilds `φ = (p'−1)(q'−1)`, recovers `d = mod_inverse(e, φ)`
inside a `try/except` that converts a `NoInverseError` into a failure
outcome rather than re-raising, and otherwise decrypts
`pow(ciphertext, d, n)` and decodes it.  Factor pairs produced by the
factorizer are positive, so `ℕ` subtraction is faithful here. -/
def attack_decrypt (n e ciphertext : ℕ) (factors : Option (ℕ × ℕ)) : AttackOutcome :=
  match factors with
  | none => .failed .noFactors
  | some (found_p, found_q) =>
    match mod_inverse (e : ℤ) (((found_p - 1) * (found_q - 1) : ℕ) : ℤ) with
    | none => .failed .keyReconstruction
    | some d_recovered =>
      .success (int_to_text ((ciphertext ^ d_recovered.toNat % n : ℕ) : ℤ))

/-! ### Basic facts about the primality test -/

theorem odd_div_scan_eq_true (n : ℕ) :
    ∀ fuel i, (odd_div_scan n fuel i = true ↔
      ∀ k, k < fuel → (i + 2 * k) * (i + 2 * k) ≤ n → ¬ n % (i + 2 * k) = 0) := by
  intro fuel
  induction fuel with
  | zero => intro i; simp [odd_div_scan]
  | succ fuel ih =>
    intro i
    rw [odd_div_scan]
    by_cases hsq : i * i ≤ n
    · rw [if_pos hsq]
      by_cases hdvd : n % i = 0
      · simp only [hdvd, if_pos rfl]
        constructor
        · intro h; exact absurd h (by simp)
        · intro h
          exact absurd hdvd (by simpa using h 0 (Nat.succ_pos fuel) (by simpa using hsq))
      · rw [if_neg hdvd]
        rw [ih (i + 2)]
        constructor
        · intro h k hk hksq
          match k with
          | 0 => simpa using hdvd
          | k + 1 =>
            have harg : i + 2 * (k + 1) = i + 2 + 2 * k := by omega
            rw [harg] at hksq ⊢
            exact h k (by omega) hksq
        · intro h k hk hksq
          have harg : i + 2 + 2 * k = i + 2 * (k + 1) := by omega
          rw [harg] at hksq ⊢
          exact h (k + 1) (by omega) hksq
    · rw [if_neg hsq]
      simp only [true_iff]
      intro k _ hksq
      exact absurd (le_trans (Nat.mul_le_mul (by omega) (by omega)) hksq) hsq

/-- The natural-number primality test agrees with `Nat.Prime`. -/
theorem is_primeNat_iff (n : ℕ) : is_primeNat n = true ↔ Nat.Prime n := by
  unfold is_primeNat
  by_cases h2 : n < 2
  · simp only [if_pos h2]
    constructor
    · intro h; exact absurd h (by simp)
    · intro hp; exact absurd hp.two_le (by omega)
  · rw [if_neg h2]
    by_cases heq2 : n = 2
    · subst heq2; simp [Nat.prime_two]
    · rw [if_neg heq2]
      by_cases heven : n % 2 = 0
      · simp only [if_pos heven]
        constructor
        · intro h; exact absurd h (by simp)
        · intro hp
          have : (2 : ℕ) ∣ n := Nat.dvd_of_mod_eq_zero heven
          have := (Nat.Prime.eq_one_or_self_of_dvd hp 2 this)
          omega
      · rw [if_neg heven, odd_div_scan_eq_true]
        rw [Nat.prime_def_le_sqrt]
        constructor
        · intro h
          refine ⟨by omega, ?_⟩
          intro m hm2 hmsqrt hdvd
          have hmm : m * m ≤ n := Nat.le_sqrt.mp hmsqrt
          by_cases hmodd : m % 2 = 0
          · have h2n : (2 : ℕ) ∣ n := dvd_trans (Nat.dvd_of_mod_eq_zero hmodd) hdvd
            exact heven (Nat.mod_eq_zero_of_dvd h2n)
          · have hm3 : 3 ≤ m := by omega
            have hk : m = 3 + 2 * ((m - 3) / 2) := by omega
            have hkf : (m - 3) / 2 < n := by
              have : m ≤ n := Nat.le_of_dvd (by omega) hdvd
              omega
            have := h ((m - 3) / 2) hkf (by rw [← hk]; exact hmm)
            rw [← hk] at this
            exact this (Nat.mod_eq_zero_of_dvd hdvd)
        · intro ⟨_, h⟩ k _ hksq hmod
          have hdvd : (3 + 2 * k) ∣ n := Nat.dvd_of_mod_eq_zero hmod
          have hsqrt : 3 + 2 * k ≤ Nat.sqrt n := Nat.le_sqrt.mpr hksq
          exact h (3 + 2 * k) (by omega) hsqrt hdvd

/-- The source's `is_prime` decides primality: it returns `true` exactly on
the (non-negative, hence natural) prime numbers, and `false` on everything
below 2, negative integers included. -/
theorem is_prime_iff (n : ℤ) : is_prime n = true ↔ (0 ≤ n ∧ Nat.Prime n.toNat) := by
  unfold is_prime
  by_cases h : n < 2
  · simp only [if_pos h]
    constructor
    · intro hf; exact absurd hf (by simp)
    · rintro ⟨h0, hp⟩
      have := hp.two_le
      omega
  · rw [if_neg h, is_primeNat_iff]
    constructor
    · intro hp; exact ⟨by omega, hp⟩
    · exact fun hp => hp.2

/-! ### `get_next_prime` -/

theorem exists_prime_in_window (n : ℕ) :
    ∃ p, Nat.Prime p ∧ n ≤ p ∧ p - n < n + 3 := by
  rcases Nat.eq_zero_or_pos n with h0 | hpos
  · exact ⟨2, Nat.prime_two, by omega, by omega⟩
  · obtain ⟨p, hp, hlt, hle⟩ := Nat.bertrand n (by omega)
    exact ⟨p, hp, by omega, by omega⟩

theorem get_next_prime_fuel_spec :
    ∀ fuel n, (∃ p, Nat.Prime p ∧ n ≤ p ∧ p - n < fuel) →
      Nat.Prime (get_next_prime_fuel fuel n) ∧ n ≤ get_next_prime_fuel fuel n ∧
      ∀ r, Nat.Prime r → n ≤ r → get_next_prime_fuel fuel n ≤ r := by
  intro fuel
  induction fuel with
  | zero =>
    intro n ⟨p, _, _, hlt⟩
    omega
  | succ fuel ih =>
    intro n ⟨p, hp, hnp, hlt⟩
    rw [get_next_prime_fuel]
    by_cases hn : is_prime (n : ℤ) = true
    · rw [if_pos hn]
      have hprime : Nat.Prime n := by
        have := (is_prime_iff (n : ℤ)).mp hn
        simpa using this.2
      exact ⟨hprime, le_refl n, fun r _ hr => hr⟩
    · rw [if_neg hn]
      have hpn : p ≠ n := by
        rintro rfl
        exact hn ((is_prime_iff (p : ℤ)).mpr ⟨by positivity, by simpa using hp⟩)
      obtain ⟨hq, hle, hmin⟩ := ih (n + 1) ⟨p, hp, by omega, by omega⟩
      refine ⟨hq, by omega, fun r hr hnr => ?_⟩
      have hrn : r ≠ n := by
        rintro rfl
        exact hn ((is_prime_iff (r : ℤ)).mpr ⟨by positivity, by simpa using hr⟩)
      exact hmin r hr (by omega)

/-- `get_next_prime n` is the smallest prime `≥ n` (the supplied fuel always
suffices, by Bertrand's postulate). -/
theorem get_next_prime_spec (n : ℕ) :
    Nat.Prime (get_next_prime n) ∧ n ≤ get_next_prime n ∧
      ∀ r, Nat.Prime r → n ≤ r → get_next_prime n ≤ r := by
  obtain ⟨p, hp, hnp, hwin⟩ := exists_prime_in_window n
  exact get_next_prime_fuel_spec (n + 3) n ⟨p, hp, hnp, hwin⟩

/-! ### `extended_gcd` and `mod_inverse` -/

theorem extended_gcd_spec :
    ∀ fuel (a b : ℤ), 0 ≤ a → 0 ≤ b → a.natAbs < fuel →
      (extended_gcd fuel a b).1 = Int.gcd a b ∧
      a * (extended_gcd fuel a b).2.1 + b * (extended_gcd fuel a b).2.2 =
        (extended_gcd fuel a b).1 := by
  intro fuel
  induction fuel with
  | zero => intro a b _ _ h; omega
  | succ fuel ih =>
    intro a b ha hb hfuel
    rw [extended_gcd]
    by_cases ha0 : a = 0
    · subst ha0
      rw [if_pos rfl]
      constructor
      · rw [Int.gcd_zero_left]
        simp only
        omega
      · simp
    · rw [if_neg ha0]
      have hapos : 0 < a := lt_of_le_of_ne ha (Ne.symm ha0)
      have hmod_nonneg : 0 ≤ b % a := Int.emod_nonneg b ha0
      have hmod_lt : b % a < a := Int.emod_lt_of_pos b hapos
      have hfuel' : (b % a).natAbs < fuel := by omega
      obtain ⟨hgcd, hbezout⟩ := ih (b % a) a hmod_nonneg ha hfuel'
      constructor
      · rw [hgcd]
        congr 1
        have ha' : (a.natAbs : ℤ) = a := Int.natAbs_of_nonneg ha
        have hb' : (b.natAbs : ℤ) = b := Int.natAbs_of_nonneg hb
        have hcast : b % a = ((b.natAbs % a.natAbs : ℕ) : ℤ) := by
          rw [Int.natCast_mod, ha', hb']
        have hnat : (b % a).natAbs = b.natAbs % a.natAbs := by
          rw [hcast, Int.natAbs_ofNat]
        rw [Int.gcd_def, Int.gcd_def, hnat, ← Nat.gcd_rec]
      · have hdef : b % a = b - a * (b / a) := Int.emod_def b a
        set r := extended_gcd fuel (b % a) a with hr
        calc a * (r.2.2 - b / a * r.2.1) + b * r.2.1
            = (b % a) * r.2.1 + a * r.2.2 := by rw [hdef]; ring
          _ = r.1 := hbezout

theorem int_gcd_emod_left (a m : ℤ) : Int.gcd (a % m) m = Int.gcd a m := by
  have hsplit : a = a % m + m * (a / m) := by rw [Int.emod_def]; ring
  apply Nat.dvd_antisymm
  · have h1 : (↑(Int.gcd (a % m) m) : ℤ) ∣ a % m := Int.gcd_dvd_left
    have h2 : (↑(Int.gcd (a % m) m) : ℤ) ∣ m := Int.gcd_dvd_right
    have ha : (↑(Int.gcd (a % m) m) : ℤ) ∣ a := by
      conv_rhs => rw [hsplit]
      exact dvd_add h1 (Dvd.dvd.mul_right h2 _)
    exact Int.natCast_dvd_natCast.mp (Int.dvd_gcd ha h2)
  · have h1 : (↑(Int.gcd a m) : ℤ) ∣ a := Int.gcd_dvd_left
    have h2 : (↑(Int.gcd a m) : ℤ) ∣ m := Int.gcd_dvd_right
    have hmod : (↑(Int.gcd a m) : ℤ) ∣ a % m := by
      rw [Int.emod_def]
      exact dvd_sub h1 (Dvd.dvd.mul_right h2 _)
    exact Int.natCast_dvd_natCast.mp (Int.dvd_gcd hmod h2)

/-- Correctness of `mod_inverse` on a coprime pair: the result exists, lies in
`[0, m)`, and is a modular inverse of `a`. -/
theorem mod_inverse_spec (a m : ℤ) (hm : 1 < m) (hgcd : Int.gcd a m = 1) :
    ∃ x, mod_inverse a m = some x ∧ 0 ≤ x ∧ x < m ∧ (a * x) % m = 1 := by
  have hm0 : m ≠ 0 := by omega
  have hmpos : 0 < m := by omega
  unfold mod_inverse
  rw [if_neg (by simp [hgcd])]
  have hmod_nonneg : 0 ≤ a % m := Int.emod_nonneg a hm0
  have hmod_lt : a % m < m := Int.emod_lt_of_pos a hmpos
  have hfuel : (a % m).natAbs < m.natAbs + 1 := by omega
  obtain ⟨hg, hbez⟩ := extended_gcd_spec (m.natAbs + 1) (a % m) m hmod_nonneg (by omega) hfuel
  set r := extended_gcd (m.natAbs + 1) (a % m) m with hr
  set x := r.2.1 with hx
  have hg1 : r.1 = 1 := by
    rw [hg, int_gcd_emod_left, hgcd]
    norm_num
  rw [hg1] at hbez
  refine ⟨(x % m + m) % m, rfl, ?_, ?_, ?_⟩
  · exact Int.emod_nonneg _ hm0
  · exact Int.emod_lt_of_pos _ hmpos
  · have hnorm : (x % m + m) % m = x % m := by
      rw [show x % m + m = x % m + m * 1 by ring, Int.add_mul_emod_self_left,
        Int.emod_emod_of_dvd x dvd_rfl]
    rw [hnorm]
    have hxm : x % m ≡ x [ZMOD m] := Int.emod_emod_of_dvd x dvd_rfl
    have ham : a ≡ a % m [ZMOD m] := (Int.emod_emod_of_dvd a dvd_rfl).symm
    have hinv : (a % m) * x ≡ 1 [ZMOD m] := by
      rw [Int.ModEq]
      have : (a % m) * x - 1 = m * (-r.2.2) := by linarith [hbez]
      calc (a % m) * x % m = (1 + m * (-r.2.2)) % m := by rw [show (1 : ℤ) + m * (-r.2.2) = (a % m) * x from by linarith]
        _ = 1 % m := Int.add_mul_emod_self_left 1 m (-r.2.2)
    calc (a * (x % m)) % m = (a * x) % m := ((hxm.mul_left a).trans (Int.ModEq.refl _)) 
      _ = ((a % m) * x) % m := (ham.mul_right x)
      _ = 1 % m := hinv
      _ = 1 := Int.emod_eq_of_lt (by omega) (by omega)

/-- When `gcd(a, m) ≠ 1`, `mod_inverse` signals the error (returns `none`). -/
theorem mod_inverse_none (a m : ℤ) (hgcd : Int.gcd a m ≠ 1) :
    mod_inverse a m = none := by
  unfold mod_inverse
  rw [if_pos hgcd]

/-- The e-search loop: given enough fuel to pass `phi_n`, starting from a
prime, it lands on a prime `e` that is coprime to `phi_n` and at least the
start value. -/
theorem find_e_spec (phi_n : ℕ) (hphi : 1 ≤ phi_n) :
    ∀ fuel e, Nat.Prime e → phi_n < e + fuel →
      Nat.gcd (find_e phi_n fuel e) phi_n = 1 ∧ e ≤ find_e phi_n fuel e ∧
        Nat.Prime (find_e phi_n fuel e) := by
  intro fuel
  induction fuel with
  | zero =>
    intro e he hlt
    rw [find_e]
    refine ⟨?_, le_refl e, he⟩
    rw [Nat.Coprime.gcd_eq_one]
    exact (Nat.Prime.coprime_iff_not_dvd he).mpr fun hdvd =>
      absurd (Nat.le_of_dvd (by omega) hdvd) (by omega)
  | succ fuel ih =>
    intro e he hlt
    rw [find_e]
    by_cases hg : Nat.gcd e phi_n = 1
    · rw [if_pos hg]
      exact ⟨hg, le_refl e, he⟩
    · rw [if_neg hg]
      obtain ⟨hprime, hge, _⟩ := get_next_prime_spec (e + 1)
      obtain ⟨h1, h2, h3⟩ := ih (get_next_prime (e + 1)) hprime (by omega)
      exact ⟨h1, by omega, h3⟩

/-- The e-search loop never overshoots a coprime prime at or above its start
value: it stops at the first such prime. -/
theorem find_e_le (phi_n : ℕ) (r : ℕ) (hr : Nat.Prime r) (hrg : Nat.gcd r phi_n = 1) :
    ∀ fuel e, e ≤ r → find_e phi_n fuel e ≤ r := by
  intro fuel
  induction fuel with
  | zero => intro e he; rw [find_e]; exact he
  | succ fuel ih =>
    intro e he
    rw [find_e]
    by_cases hg : Nat.gcd e phi_n = 1
    · rw [if_pos hg]; exact he
    · rw [if_neg hg]
      have hne : e ≠ r := fun h => hg (h ▸ hrg)
      obtain ⟨_, _, hmin⟩ := get_next_prime_spec (e + 1)
      exact ih (get_next_prime (e + 1)) (hmin r hr (by omega))

/-- Bundle of facts established by a successful `generate_keypair` call:
primality of the inputs, the shape of both keys, and the arithmetic
properties of `e` and `d`. -/
theorem generate_keypair_spec (p q : ℕ) (pub priv : ℕ × ℕ)
    (h : generate_keypair p q = some (pub, priv)) :
    Nat.Prime p ∧ Nat.Prime q ∧ p ≠ q ∧
      pub.1 = p * q ∧ priv.1 = p * q ∧
      3 ≤ pub.2 ∧ Nat.Prime pub.2 ∧
      Nat.gcd pub.2 ((p - 1) * (q - 1)) = 1 ∧
      (pub.2 * priv.2) % ((p - 1) * (q - 1)) = 1 ∧
      priv.2 < (p - 1) * (q - 1) ∧
      pub.2 = find_e ((p - 1) * (q - 1)) ((p - 1) * (q - 1) + 2)
        (if 65537 ≥ (p - 1) * (q - 1) then 3 else 65537) := by
  unfold generate_keypair at h
  by_cases hprimes : is_prime (p : ℤ) = true ∧ is_prime (q : ℤ) = true
  · rw [if_neg (by simpa using hprimes)] at h
    by_cases hpq : p = q
    · rw [if_pos hpq] at h
      exact absurd h (by simp)
    · rw [if_neg hpq] at h
      have hp : Nat.Prime p := by
        have := (is_prime_iff (p : ℤ)).mp hprimes.1
        simpa using this.2
      have hq : Nat.Prime q := by
        have := (is_prime_iff (q : ℤ)).mp hprimes.2
        simpa using this.2
      have hp2 := hp.two_le
      have hq2 := hq.two_le
      have hphi2 : 2 ≤ (p - 1) * (q - 1) := by
        rcases Nat.lt_or_ge p 3 with hp3 | hp3
        · have hpeq : p = 2 := by omega
          have hq3 : 3 ≤ q := by
            rcases Nat.lt_or_ge q 3 with hq3 | hq3
            · exact absurd (by omega : p = q) hpq
            · exact hq3
          calc 2 ≤ (q - 1) := by omega
            _ = 1 * (q - 1) := (one_mul _).symm
            _ ≤ (p - 1) * (q - 1) := Nat.mul_le_mul (by omega) (le_refl _)
        · calc 2 = 2 * 1 := rfl
            _ ≤ (p - 1) * (q - 1) := Nat.mul_le_mul (by omega) (by omega)
      set phi_n := (p - 1) * (q - 1) with hphi_def
      set e0 := if 65537 ≥ phi_n then 3 else 65537 with he0_def
      have he0_prime : Nat.Prime e0 := by
        rw [he0_def]
        split
        · exact Nat.prime_three
        · norm_num
      have he0_3 : 3 ≤ e0 := by
        rw [he0_def]; split
        · exact le_refl 3
        · norm_num
      set e := find_e phi_n (phi_n + 2) e0 with he_def
      obtain ⟨hegcd, hege0, heprime⟩ :=
        find_e_spec phi_n (by omega) (phi_n + 2) e0 he0_prime (by omega)
      rw [← he_def] at hegcd hege0 heprime
      have hIgcd : Int.gcd (e : ℤ) (phi_n : ℤ) = 1 := by
        rw [Int.gcd_natCast_natCast]
        exact hegcd
      obtain ⟨x, hxeq, hx0, hxlt, hxinv⟩ :=
        mod_inverse_spec (e : ℤ) (phi_n : ℤ) (by exact_mod_cast by omega : (1 : ℤ) < phi_n) hIgcd
      dsimp only at h
      rw [hxeq] at h
      have hinj := Option.some.inj h
      have hpub : pub = (p * q, e) := (congrArg Prod.fst hinj).symm
      have hpriv : priv = (p * q, x.toNat) := (congrArg Prod.snd hinj).symm
      rw [hpub, hpriv]
      refine ⟨hp, hq, hpq, rfl, rfl, by omega, heprime, hegcd, ?_, by omega, rfl⟩
      have hxnat : (x.toNat : ℤ) = x := Int.toNat_of_nonneg hx0
      have : ((e * x.toNat : ℕ) : ℤ) % (phi_n : ℤ) = 1 := by
        push_cast [hxnat]
        exact hxinv
      rw [← Int.natCast_mod] at this
      exact_mod_cast this
  · rw [if_pos (by simpa using hprimes)] at h
    exact absurd h (by simp)

/-- As long as `phi_n` is even, at least 4, and strictly above the start
value, the e-search loop stops strictly below `phi_n` (via Bertrand's
postulate: some prime in `(phi_n / 2, phi_n)` cannot divide `phi_n`). -/
theorem find_e_lt_phi (phi_n e0 : ℕ) (hphi_even : phi_n % 2 = 0) (hphi4 : 4 ≤ phi_n)
    (he0p : Nat.Prime e0) (he0lt : e0 < phi_n) :
    find_e phi_n (phi_n + 2) e0 < phi_n := by
  rcases Nat.lt_or_ge phi_n (2 * e0) with hsmall | hbig
  · have hndvd : ¬ e0 ∣ phi_n := by
      intro hdvd
      obtain ⟨c, hc⟩ := hdvd
      have hc2 : 2 ≤ c := by
        rcases Nat.lt_or_ge c 2 with hcl | hcl
        · interval_cases c <;> omega
        · exact hcl
      have : e0 * 2 ≤ e0 * c := Nat.mul_le_mul_left e0 hc2
      omega
    have hgcd : Nat.gcd e0 phi_n = 1 :=
      Nat.Coprime.gcd_eq_one ((Nat.Prime.coprime_iff_not_dvd he0p).mpr hndvd)
    exact lt_of_le_of_lt (find_e_le phi_n e0 he0p hgcd (phi_n + 2) e0 (le_refl e0)) he0lt
  · have he02 := he0p.two_le
    obtain ⟨P, hP, hPgt, hPle⟩ := Nat.bertrand (phi_n / 2) (by omega)
    have hP3 : 2 < P := by omega
    have hPlt : P < phi_n := by
      rcases Nat.lt_or_ge P phi_n with h | h
      · exact h
      · exfalso
        have hPeq : P = phi_n := by omega
        have h2P : (2 : ℕ) ∣ P := hPeq ▸ Nat.dvd_of_mod_eq_zero hphi_even
        rcases (hP.eq_one_or_self_of_dvd 2 h2P) with h21 | h2self
        · omega
        · omega
    have hndvd : ¬ P ∣ phi_n := by
      intro hdvd
      obtain ⟨c, hc⟩ := hdvd
      rcases Nat.lt_or_ge c 2 with hcl | hcl
      · interval_cases c <;> omega
      · have : P * 2 ≤ P * c := Nat.mul_le_mul_left P hcl
        omega
    have hgcd : Nat.gcd P phi_n = 1 :=
      Nat.Coprime.gcd_eq_one ((Nat.Prime.coprime_iff_not_dvd hP).mpr hndvd)
    exact lt_of_le_of_lt (find_e_le phi_n P hP hgcd (phi_n + 2) e0 (by omega)) hPlt

/-- Fermat-style cancellation: for a prime `pp` the exponent
`(pp - 1) * t + 1` acts as the identity on every residue mod `pp`. -/
theorem pow_totient_prime_cancel (pp : ℕ) (hp : Nat.Prime pp) (t m : ℕ) :
    m ^ ((pp - 1) * t + 1) ≡ m [MOD pp] := by
  haveI := Fact.mk hp
  have hz : ((m : ZMod pp)) ^ ((pp - 1) * t + 1) = (m : ZMod pp) := by
    by_cases hm : (m : ZMod pp) = 0
    · rw [hm, zero_pow (by omega)]
    · rw [pow_succ, pow_mul, ZMod.pow_card_sub_one_eq_one hm, one_pow, one_mul]
  have := (ZMod.natCast_eq_natCast_iff (m ^ ((pp - 1) * t + 1)) m pp).mp
  apply this
  push_cast
  exact hz

/-- RSA correctness core: any exponent `≡ 1 (mod (p−1)(q−1))` acts as the
identity on every residue mod `p·q`, for distinct primes `p`, `q`. -/
theorem rsa_exponent_cancel (p q : ℕ) (hp : Nat.Prime p) (hq : Nat.Prime q) (hpq : p ≠ q)
    (ed : ℕ) (hed : ed % ((p - 1) * (q - 1)) = 1) (m : ℕ) :
    m ^ ed ≡ m [MOD p * q] := by
  set phi_n := (p - 1) * (q - 1) with hphi
  have hsplit : ed = phi_n * (ed / phi_n) + 1 := by
    have := Nat.div_add_mod ed phi_n
    omega
  set k := ed / phi_n with hk
  have hedp : ed = (p - 1) * ((q - 1) * k) + 1 := by
    rw [hsplit, hphi]; ring
  have hedq : ed = (q - 1) * ((p - 1) * k) + 1 := by
    rw [hsplit, hphi]; ring
  have hmodp : m ^ ed ≡ m [MOD p] := by
    rw [hedp]; exact pow_totient_prime_cancel p hp ((q - 1) * k) m
  have hmodq : m ^ ed ≡ m [MOD q] := by
    rw [hedq]; exact pow_totient_prime_cancel q hq ((p - 1) * k) m
  exact (Nat.modEq_and_modEq_iff_modEq_mul ((Nat.coprime_primes hp hq).mpr hpq)).mp
    ⟨hmodp, hmodq⟩

/-! ### Claim C1: RSA encrypt/decrypt round-trip -/

/-- C1: for every pair of distinct primes `p`, `q`, after
`generate_keypair(p, q)` produces a key with modulus `n = p·q`,
`decrypt(encrypt(m, key), key) = m` for every integer `m` in `[0, n)`. -/
theorem claim_C1_rsa_roundtrip (p q : ℕ) (pub priv : ℕ × ℕ)
    (h : generate_keypair p q = some (pub, priv)) :
    pub.1 = p * q ∧
      ∀ m, m < pub.1 → ∃ c, encrypt pub m = some c ∧ decrypt priv c = m := by
  obtain ⟨hp, hq, hpq, hpub1, hpriv1, he3, heprime, hegcd, hed, hdlt, hefind⟩ :=
    generate_keypair_spec p q pub priv h
  refine ⟨hpub1, fun m hm => ⟨m ^ pub.2 % pub.1, ?_, ?_⟩⟩
  · unfold encrypt
    rw [if_neg (by omega)]
  · unfold decrypt
    rw [hpub1, hpriv1, ← Nat.pow_mod, ← pow_mul]
    have hcancel := rsa_exponent_cancel p q hp hq hpq (pub.2 * priv.2) hed m
    have hmod : m % (p * q) = m := Nat.mod_eq_of_lt (hpub1 ▸ hm)
    calc m ^ (pub.2 * priv.2) % (p * q) = m % (p * q) := hcancel
      _ = m := hmod

/-- Witness for C1 at `p = 3`, `q = 5`, `m = 2`. -/
theorem claim_C1_witness :
    ∃ c, encrypt (15, 3) 2 = some c ∧ decrypt (15, 3) c = 2 :=
  (claim_C1_rsa_roundtrip 3 5 (15, 3) (15, 3) (by decide)).2 2 (by decide)

/-! ### Claim C2: keypair invariant -/

/-- Counterexample to C2 as stated: for `p = 2`, `q = 3` the key
`(n, e, d) = (6, 3, 1)` is returned with `φ(n) = 2`, and `e < φ(n)` fails
(`3 < 2` is false). -/
theorem claim_C2_counterexample :
    generate_keypair 2 3 = some ((6, 3), (6, 1)) ∧
      ¬ ((6, 3).2 < (2 - 1) * (3 - 1)) := by
  constructor
  · decide
  · decide

/-- C2 (amended): for every pair of distinct primes accepted by
`generate_keypair(p, q)` **with `φ(n) > 2`**, the returned key satisfies
`1 < e < φ(n)`, `gcd(e, φ(n)) = 1` and `d·e ≡ 1 (mod φ(n))`, where
`φ(n) = (p−1)(q−1)`.  (At `φ(n) = 2`, i.e. `{p,q} = {2,3}`, the fallback
start value 3 already exceeds `φ(n)`, so `e < φ(n)` fails there.) -/
theorem claim_C2_keypair_invariant (p q : ℕ) (pub priv : ℕ × ℕ)
    (h : generate_keypair p q = some (pub, priv))
    (hphi : 2 < (p - 1) * (q - 1)) :
    1 < pub.2 ∧ pub.2 < (p - 1) * (q - 1) ∧
      Nat.gcd pub.2 ((p - 1) * (q - 1)) = 1 ∧
      (priv.2 * pub.2) % ((p - 1) * (q - 1)) = 1 := by
  obtain ⟨hp, hq, hpq, hpub1, hpriv1, he3, heprime, hegcd, hed, hdlt, hefind⟩ :=
    generate_keypair_spec p q pub priv h
  have hp2 := hp.two_le
  have hq2 := hq.two_le
  have hphieven : (p - 1) * (q - 1) % 2 = 0 := by
    have hone : (p - 1) % 2 = 0 ∨ (q - 1) % 2 = 0 := by
      by_cases hp2' : p = 2
      · right
        have hqodd : ¬ (2 : ℕ) ∣ q := by
          intro hdvd
          rcases (hq.eq_one_or_self_of_dvd 2 hdvd) with h1 | h1 <;> omega
        have : q % 2 = 1 := by
          rcases Nat.mod_two_eq_zero_or_one q with h0 | h1
          · exact absurd (Nat.dvd_of_mod_eq_zero h0) hqodd
          · exact h1
        omega
      · left
        have hpodd : ¬ (2 : ℕ) ∣ p := by
          intro hdvd
          rcases (hp.eq_one_or_self_of_dvd 2 hdvd) with h1 | h1 <;> omega
        have : p % 2 = 1 := by
          rcases Nat.mod_two_eq_zero_or_one p with h0 | h1
          · exact absurd (Nat.dvd_of_mod_eq_zero h0) hpodd
          · exact h1
        omega
    rcases hone with hpe | hqe
    · have : (2 : ℕ) ∣ (p - 1) * (q - 1) :=
        Dvd.dvd.mul_right (Nat.dvd_of_mod_eq_zero hpe) _
      exact Nat.mod_eq_zero_of_dvd this
    · have : (2 : ℕ) ∣ (p - 1) * (q - 1) :=
        Dvd.dvd.mul_left (Nat.dvd_of_mod_eq_zero hqe) _
      exact Nat.mod_eq_zero_of_dvd this
  have hphi4 : 4 ≤ (p - 1) * (q - 1) := by omega
  have helt : pub.2 < (p - 1) * (q - 1) := by
    rw [hefind]
    apply find_e_lt_phi _ _ hphieven hphi4
    · split
      · exact Nat.prime_three
      · norm_num
    · split <;> omega
  exact ⟨by omega, helt, hegcd, by rw [Nat.mul_comm]; exact hed⟩

/-- Witness for C2 (amended) at `p = 3`, `q = 5`. -/
theorem claim_C2_witness :
    1 < (15, 3).2 ∧ (15, 3).2 < (3 - 1) * (5 - 1) ∧
      Nat.gcd (15, 3).2 ((3 - 1) * (5 - 1)) = 1 ∧
      ((15, 3).2 * (15, 3).2) % ((3 - 1) * (5 - 1)) = 1 :=
  claim_C2_keypair_invariant 3 5 (15, 3) (15, 3) (by decide) (by decide)

/-! ### Claim C3: `mod_inverse` -/

/-- C3: for all integers `a` and `m` with `m > 1`: when `gcd(a, m) = 1`,
`mod_inverse(a, m)` returns an `x` in `[0, m)` with `(a·x) mod m = 1`; when
`gcd(a, m) ≠ 1` it signals `NoInverseError` (modelled as `none`); in
particular `mod_inverse(2, 4)` fails. -/
theorem claim_C3_mod_inverse (a m : ℤ) (hm : 1 < m) :
    (Int.gcd a m = 1 →
      ∃ x, mod_inverse a m = some x ∧ 0 ≤ x ∧ x < m ∧ (a * x) % m = 1) ∧
    (Int.gcd a m ≠ 1 → mod_inverse a m = none) ∧
    mod_inverse 2 4 = none := by
  refine ⟨fun hgcd => mod_inverse_spec a m hm hgcd, fun hgcd => mod_inverse_none a m hgcd, ?_⟩
  decide

/-- Witness for C3 at `a = 3`, `m = 8` (and the coprime branch). -/
theorem claim_C3_witness :
    ∃ x, mod_inverse 3 8 = some x ∧ 0 ≤ x ∧ x < 8 ∧ (3 * x) % 8 = 1 :=
  (claim_C3_mod_inverse 3 8 (by norm_num)).1 (by decide)

/-! ### Claim C6: `encrypt` boundary behaviour -/

/-- C6: for every key with modulus `n`, `encrypt(message_int, key)` signals
`MessageTooLargeError` exactly when `message_int ≥ n`, and for every
`message_int` in `[0, n)` it succeeds and returns `message_int^e mod n`. -/
theorem claim_C6_encrypt_boundary (key : ℕ × ℕ) (message_int : ℕ) :
    (encrypt key message_int = none ↔ key.1 ≤ message_int) ∧
    (message_int < key.1 →
      encrypt key message_int = some (message_int ^ key.2 % key.1)) := by
  unfold encrypt
  constructor
  · by_cases h : message_int ≥ key.1
    · rw [if_pos h]
      simpa using h
    · rw [if_neg h]
      constructor
      · intro hc; exact absurd hc (by simp)
      · intro hc; omega
  · intro h
    rw [if_neg (by omega)]

/-- Witness for C6: on the key `(15, 3)`, the boundary message `15` errors
and `14 = n − 1` encrypts. -/
theorem claim_C6_witness :
    encrypt (15, 3) 15 = none ∧ encrypt (15, 3) 14 = some (14 ^ 3 % 15) :=
  ⟨(claim_C6_encrypt_boundary (15, 3) 15).1.mpr (by decide),
    (claim_C6_encrypt_boundary (15, 3) 14).2 (by decide)⟩

/-! ### Claim C7: `is_prime` decides primality -/

/-- C7: for every integer `n`, `is_prime(n)` returns true exactly when `n`
is a prime number (trial division by 2 and the odd candidates up to `⌊√n⌋`);
in particular it returns false for every `n < 2`. -/
theorem claim_C7_is_prime (n : ℤ) :
    (is_prime n = true ↔ (0 ≤ n ∧ Nat.Prime n.toNat)) ∧
    (n < 2 → is_prime n = false) := by
  refine ⟨is_prime_iff n, fun h => ?_⟩
  unfold is_prime
  rw [if_pos h]

/-- Witness for C7 at a negative integer and at a prime. -/
theorem claim_C7_witness :
    is_prime (-5) = false ∧ (is_prime 7 = true ↔ (0 ≤ (7 : ℤ) ∧ Nat.Prime (7 : ℤ).toNat)) :=
  ⟨(claim_C7_is_prime (-5)).2 (by decide), (claim_C7_is_prime 7).1⟩

/-! ### Claim C9: key-recovery failure is caught -/

/-- C9: in the key-recovery step of the attack, for every recovered factor
pair and public exponent `e`, if `mod_inverse(e, φ)` signals
`NoInverseError` then the orchestrator reaches the `FAILED` terminal state
(with the key-reconstruction reason) and the error is never propagated as a
raw error: `attack_decrypt` is a total function into `AttackOutcome`. -/
theorem claim_C9_no_inverse_caught (n e ciphertext found_p found_q : ℕ)
    (herr : mod_inverse (e : ℤ) (((found_p - 1) * (found_q - 1) : ℕ) : ℤ) = none) :
    attack_decrypt n e ciphertext (some (found_p, found_q)) =
      .failed .keyReconstruction := by
  unfold attack_decrypt
  dsimp only
  rw [herr]

/-- Witness for C9: recovered "factors" `(3, 3)` give `φ = 4`, on which
`e = 2` has no inverse; the outcome is the `FAILED` state. -/
theorem claim_C9_witness :
    attack_decrypt 15 2 8 (some (3, 3)) = .failed .keyReconstruction :=
  claim_C9_no_inverse_caught 15 2 8 3 3 (by decide)

/-! ### Pollard's rho: soundness and termination -/

theorem rho_loop_dvd (n : ℕ) : ∀ fuel x y, rho_loop n fuel x y ∣ n := by
  intro fuel
  induction fuel with
  | zero => intro x y; exact one_dvd n
  | succ fuel ih =>
    intro x y
    rw [rho_loop]
    by_cases h : Nat.gcd (Nat.dist (rho_f n x) (rho_f n (rho_f n y))) n = 1
    · rw [if_pos h]; exact ih _ _
    · rw [if_neg h]; exact Nat.gcd_dvd_right _ n

/-- C4 (amended): `pollards_rho(n, max_iterations)` never returns a false
factor: for every `n > 2` (rather than `n > 1`), every iteration budget and
every seed, a returned pair `(f1, f2)` satisfies `f1·f2 = n` and
`1 < f1 < n`; and when the gcd probe ends at `d = n` (odd `n`), it reports
"not found".  (At `n = 2` the even short-circuit returns `(2, 1)`, whose
first component is not `< n`.) -/
theorem claim_C4_pollards_rho_sound (n max_iterations x0 : ℕ) (hn : 2 < n) :
    (∀ f1 f2, pollards_rho n max_iterations x0 = some (f1, f2) →
      f1 * f2 = n ∧ 1 < f1 ∧ f1 < n) ∧
    (n % 2 ≠ 0 → rho_loop n max_iterations x0 x0 = n →
      pollards_rho n max_iterations x0 = none) := by
  constructor
  · intro f1 f2 hsome
    unfold pollards_rho at hsome
    by_cases heven : n % 2 = 0
    · rw [if_pos heven] at hsome
      have h1 : f1 = 2 := (congrArg Prod.fst (Option.some.inj hsome)).symm
      have h2 : f2 = n / 2 := (congrArg Prod.snd (Option.some.inj hsome)).symm
      subst h1; subst h2
      refine ⟨?_, by omega, by omega⟩
      have : (2 : ℕ) ∣ n := Nat.dvd_of_mod_eq_zero heven
      exact Nat.mul_div_cancel' this
    · rw [if_neg heven] at hsome
      by_cases hcond : rho_loop n max_iterations x0 x0 ≠ 1 ∧
          rho_loop n max_iterations x0 x0 ≠ n
      · rw [if_pos hcond] at hsome
        have h1 : f1 = rho_loop n max_iterations x0 x0 :=
          (congrArg Prod.fst (Option.some.inj hsome)).symm
        have h2 : f2 = n / rho_loop n max_iterations x0 x0 :=
          (congrArg Prod.snd (Option.some.inj hsome)).symm
        subst h1; subst h2
        have hdvd : rho_loop n max_iterations x0 x0 ∣ n := rho_loop_dvd n _ _ _
        have hle := Nat.le_of_dvd (by omega) hdvd
        have hpos : 0 < rho_loop n max_iterations x0 x0 :=
          Nat.pos_of_dvd_of_pos hdvd (by omega)
        refine ⟨Nat.mul_div_cancel' hdvd, ?_, ?_⟩
        · rcases hcond with ⟨h1', _⟩; omega
        · rcases hcond with ⟨_, h2'⟩; omega
      · rw [if_neg hcond] at hsome
        exact absurd hsome (by simp)
  · intro hodd hdn
    unfold pollards_rho
    rw [if_neg hodd, if_neg (by simp [hdn])]

/-- Counterexample to C4 as stated (`n > 1`): at `n = 2` the even
short-circuit returns the pair `(2, 1)`, and its first component `2` is not
strictly below `n = 2`. -/
theorem claim_C4_counterexample :
    pollards_rho 2 10 2 = some (2, 1) ∧ ¬ ((2 : ℕ) < 2) :=
  ⟨by decide, by decide⟩

/-- Witness for C4 at `n = 15`, five iterations, seed 2 (which finds the
factor pair `(3, 5)`). -/
theorem claim_C4_witness :
    (3 : ℕ) * 5 = 15 ∧ 1 < (3 : ℕ) ∧ (3 : ℕ) < 15 :=
  (claim_C4_pollards_rho_sound 15 5 2 (by decide)).1 3 5 (by decide)

theorem rho_step_of_guard (n M : ℕ) (s : RhoState) (h : s.d = 1 ∧ s.iters < M) :
    rho_step n M s = ⟨rho_f n s.x, rho_f n (rho_f n s.y),
      Nat.gcd (Nat.dist (rho_f n s.x) (rho_f n (rho_f n s.y))) n, s.iters + 1⟩ := by
  unfold rho_step
  rw [if_pos h]

theorem rho_step_of_not_guard (n M : ℕ) (s : RhoState)
    (h : ¬ (s.d = 1 ∧ s.iters < M)) : rho_step n M s = s := by
  unfold rho_step
  rw [if_neg h]

theorem rho_step_iters_or_fix (n M x0 : ℕ) :
    ∀ j, rho_step n M ((rho_step n M)^[j] (rho_init x0)) =
        (rho_step n M)^[j] (rho_init x0) ∨
      ((rho_step n M)^[j] (rho_init x0)).iters = j := by
  intro j
  induction j with
  | zero => right; rfl
  | succ j ih =>
    rcases ih with hfix | hit
    · left
      rw [Function.iterate_succ_apply', hfix]
      exact hfix
    · by_cases hguard : ((rho_step n M)^[j] (rho_init x0)).d = 1 ∧
          ((rho_step n M)^[j] (rho_init x0)).iters < M
      · right
        rw [Function.iterate_succ_apply', rho_step_of_guard n M _ hguard]
        show ((rho_step n M)^[j] (rho_init x0)).iters + 1 = j + 1
        omega
      · left
        have hstep := rho_step_of_not_guard n M _ hguard
        rw [Function.iterate_succ_apply', hstep]
        exact hstep

theorem rho_iterate_fix_at_max (n M x0 : ℕ) :
    rho_step n M ((rho_step n M)^[M] (rho_init x0)) =
      (rho_step n M)^[M] (rho_init x0) := by
  rcases rho_step_iters_or_fix n M x0 M with hfix | hit
  · exact hfix
  · exact rho_step_of_not_guard n M _ (by rw [hit]; intro hc; omega)

theorem rho_loop_eq_iterate (n : ℕ) :
    ∀ fuel x y it, rho_loop n fuel x y =
      ((rho_step n (it + fuel))^[fuel] (⟨x, y, 1, it⟩ : RhoState)).d := by
  intro fuel
  induction fuel with
  | zero => intro x y it; rfl
  | succ fuel ih =>
    intro x y it
    rw [rho_loop, Function.iterate_succ_apply,
      rho_step_of_guard n (it + (fuel + 1)) _
        ⟨rfl, by show it < it + (fuel + 1); omega⟩]
    by_cases hd1 : Nat.gcd (Nat.dist (rho_f n x) (rho_f n (rho_f n y))) n = 1
    · rw [if_pos hd1]
      have := ih (rho_f n x) (rho_f n (rho_f n y)) (it + 1)
      rw [show it + 1 + fuel = it + (fuel + 1) from by omega] at this
      rw [this]
      congr 1
      rw [hd1]
    · rw [if_neg hd1]
      have hfix := rho_step_of_not_guard n (it + (fuel + 1))
        (⟨rho_f n x, rho_f n (rho_f n y),
          Nat.gcd (Nat.dist (rho_f n x) (rho_f n (rho_f n y))) n, it + 1⟩ : RhoState)
        (by intro hc; exact hd1 hc.1)
      rw [Function.iterate_fixed hfix fuel]

/-- C8: the Floyd loop of `pollards_rho` executes at most `max_iterations`
iterations — after `max_iterations` steps the loop state is stable (the
guard has failed), so iterating any longer changes nothing — and the
function's final `d` is exactly the `d` of that stable state, so the
iteration budget is a hard cap that guarantees termination. -/
theorem claim_C8_pollards_rho_terminates (n max_iterations x0 k : ℕ)
    (hk : max_iterations ≤ k) :
    (rho_step n max_iterations)^[k] (rho_init x0) =
      (rho_step n max_iterations)^[max_iterations] (rho_init x0) ∧
    rho_loop n max_iterations x0 x0 =
      ((rho_step n max_iterations)^[max_iterations] (rho_init x0)).d := by
  constructor
  · rw [show k = (k - max_iterations) + max_iterations from by omega,
      Function.iterate_add_apply]
    exact Function.iterate_fixed (rho_iterate_fix_at_max n max_iterations x0)
      (k - max_iterations)
  · have := rho_loop_eq_iterate n max_iterations x0 x0 0
    rw [show 0 + max_iterations = max_iterations from by omega] at this
    exact this

/-- Witness for C8 at `n = 15`, budget 3, seed 2, overshoot 5. -/
theorem claim_C8_witness :
    (rho_step 15 3)^[5] (rho_init 2) = (rho_step 15 3)^[3] (rho_init 2) ∧
      rho_loop 15 3 2 2 = ((rho_step 15 3)^[3] (rho_init 2)).d :=
  claim_C8_pollards_rho_terminates 15 3 2 5 (by decide)

/-! ### Trial division -/

theorem td_scan_none (n : ℕ) :
    ∀ fuel i, (∀ k, k < fuel → ¬ n % (i + 2 * k) = 0) → td_scan n fuel i = none := by
  intro fuel
  induction fuel with
  | zero => intro i _; rfl
  | succ fuel ih =>
    intro i h
    rw [td_scan, if_neg (by simpa using h 0 (by omega))]
    apply ih
    intro k hk
    have := h (k + 1) (by omega)
    rw [show i + 2 * (k + 1) = i + 2 + 2 * k from by omega] at this
    exact this

theorem td_scan_found (n : ℕ) :
    ∀ fuel i k0, k0 < fuel → n % (i + 2 * k0) = 0 →
      (∀ k, k < k0 → ¬ n % (i + 2 * k) = 0) →
      td_scan n fuel i = some (i + 2 * k0, n / (i + 2 * k0)) := by
  intro fuel
  induction fuel with
  | zero => intro i k0 h; omega
  | succ fuel ih =>
    intro i k0 hk0 hdvd hmin
    match k0 with
    | 0 =>
      rw [td_scan, if_pos (by simpa using hdvd)]
      simp
    | k0 + 1 =>
      rw [td_scan, if_neg (by simpa using hmin 0 (by omega))]
      have harg : ∀ k : ℕ, i + 2 + 2 * k = i + 2 * (k + 1) := by intro k; omega
      have := ih (i + 2) k0 (by omega) (by rw [harg k0]; exact hdvd)
        (fun k hk => by rw [harg k]; exact hmin (k + 1) (by omega))
      rw [this, harg k0]

/-- C5: for every composite `n` and positive `limit`, `trial_division`
returns the smallest non-trivial divisor `f = Nat.minFac n` of `n` paired
with `n / f` exactly when `f = 2` (even `n` short-circuits immediately, for
any `limit`) or `f` is one of the odd candidates `3, 5, …` scanned below
`limit`; otherwise it returns "not found"; in particular
`trial_division(391, 50) = (17, 23)` and `trial_division(391, 5)` is "not
found". -/
theorem claim_C5_trial_division :
    (∀ n limit, 1 < n → ¬ Nat.Prime n → 0 < limit →
      trial_division n limit =
        if n % 2 = 0 ∨ Nat.minFac n < limit
        then some (Nat.minFac n, n / Nat.minFac n)
        else none) ∧
    trial_division 391 50 = some (17, 23) ∧
    trial_division 391 5 = none := by
  refine ⟨?_, by decide, by decide⟩
  intro n limit hn1 hnp hlim
  unfold trial_division
  have hne1 : n ≠ 1 := by omega
  have hfp : Nat.Prime (Nat.minFac n) := Nat.minFac_prime hne1
  have hfdvd : Nat.minFac n ∣ n := Nat.minFac_dvd n
  have hf2 := hfp.two_le
  by_cases heven : n % 2 = 0
  · rw [if_pos heven, if_pos (Or.inl heven)]
    have h2 : Nat.minFac n ≤ 2 :=
      Nat.minFac_le_of_dvd (le_refl 2) (Nat.dvd_of_mod_eq_zero heven)
    have hfeq : Nat.minFac n = 2 := by omega
    rw [hfeq]
  · rw [if_neg heven]
    have hfodd : Nat.minFac n % 2 = 1 := by
      rcases Nat.mod_two_eq_zero_or_one (Nat.minFac n) with h0 | h1
      · exfalso
        have h2f : (2 : ℕ) ∣ Nat.minFac n := Nat.dvd_of_mod_eq_zero h0
        have : (2 : ℕ) ∣ n := dvd_trans h2f hfdvd
        exact heven (Nat.mod_eq_zero_of_dvd this)
      · exact h1
    have hf3 : 3 ≤ Nat.minFac n := by omega
    by_cases hflim : Nat.minFac n < limit
    · rw [if_pos (Or.inr hflim)]
      have hk0 : Nat.minFac n = 3 + 2 * ((Nat.minFac n - 3) / 2) := by omega
      have hfound := td_scan_found n ((limit - 2) / 2) 3 ((Nat.minFac n - 3) / 2)
        (by omega)
        (by rw [← hk0]; exact Nat.mod_eq_zero_of_dvd hfdvd)
        (fun k hk => by
          intro hmod
          have hjdvd : (3 + 2 * k) ∣ n := Nat.dvd_of_mod_eq_zero hmod
          have := Nat.minFac_le_of_dvd (by omega) hjdvd
          omega)
      rw [hfound, ← hk0]
    · rw [if_neg (by simpa [heven] using hflim)]
      apply td_scan_none
      intro k hk hmod
      have hjdvd : (3 + 2 * k) ∣ n := Nat.dvd_of_mod_eq_zero hmod
      have := Nat.minFac_le_of_dvd (by omega) hjdvd
      omega

/-- Witness for C5 at `n = 391`, `limit = 50`. -/
theorem claim_C5_witness :
    trial_division 391 50 =
      (if 391 % 2 = 0 ∨ Nat.minFac 391 < 50
       then some (Nat.minFac 391, 391 / Nat.minFac 391)
       else none) :=
  claim_C5_trial_division.1 391 50 (by norm_num) (by norm_num) (by norm_num)

/-! ### Byte-string ↔ integer conversions -/

theorem bytesToNat_foldl_acc :
    ∀ (bs : List ℕ) (a : ℕ),
      List.foldl (fun acc b => acc * 256 + b) a bs = a * 256 ^ bs.length + bytesToNat bs := by
  intro bs
  induction bs with
  | nil => intro a; simp [bytesToNat]
  | cons b bs ih =>
    intro a
    show List.foldl _ (a * 256 + b) bs = a * 256 ^ (b :: bs).length + bytesToNat (b :: bs)
    rw [ih (a * 256 + b)]
    have hbn : bytesToNat (b :: bs) = b * 256 ^ bs.length + bytesToNat bs := by
      show List.foldl _ (0 * 256 + b) bs = _
      rw [ih (0 * 256 + b)]
      ring_nf
    rw [hbn, List.length_cons]
    ring

theorem bytesToNat_cons (b : ℕ) (bs : List ℕ) :
    bytesToNat (b :: bs) = b * 256 ^ bs.length + bytesToNat bs := by
  show List.foldl _ (0 * 256 + b) bs = _
  rw [bytesToNat_foldl_acc bs (0 * 256 + b)]
  ring_nf

theorem bytesToNat_lt :
    ∀ bs : List ℕ, (∀ b ∈ bs, b < 256) → bytesToNat bs < 256 ^ bs.length := by
  intro bs
  induction bs with
  | nil => intro _; simp [bytesToNat]
  | cons b bs ih =>
    intro h
    rw [bytesToNat_cons, List.length_cons]
    have hb : b ≤ 255 := by
      have := h b (List.mem_cons_self b bs)
      omega
    have hV : bytesToNat bs < 256 ^ bs.length :=
      ih (fun x hx => h x (List.mem_cons_of_mem b hx))
    calc b * 256 ^ bs.length + bytesToNat bs
        < b * 256 ^ bs.length + 256 ^ bs.length := by omega
      _ ≤ 255 * 256 ^ bs.length + 256 ^ bs.length :=
          Nat.add_le_add_right (Nat.mul_le_mul_right _ hb) _
      _ = 256 ^ bs.length * 256 := by ring
      _ = 256 ^ (bs.length + 1) := (pow_succ 256 bs.length).symm

theorem bytesToNat_head_ge (b : ℕ) (bs : List ℕ) (hb : b ≠ 0) :
    256 ^ bs.length ≤ bytesToNat (b :: bs) := by
  rw [bytesToNat_cons]
  calc 256 ^ bs.length = 1 * 256 ^ bs.length := (one_mul _).symm
    _ ≤ b * 256 ^ bs.length := Nat.mul_le_mul_right _ (by omega)
    _ ≤ b * 256 ^ bs.length + bytesToNat bs := Nat.le_add_right _ _

theorem natToBytesBE_bytesToNat :
    ∀ bs : List ℕ, (∀ b ∈ bs, b < 256) → natToBytesBE bs.length (bytesToNat bs) = bs := by
  intro bs
  induction bs using List.reverseRecOn with
  | nil => intro _; rfl
  | append_singleton bs b ih =>
    intro h
    have hb : b < 256 := h b (by simp)
    have hbs : ∀ x ∈ bs, x < 256 := fun x hx => h x (by simp [hx])
    have hval : bytesToNat (bs ++ [b]) = bytesToNat bs * 256 + b := by
      show List.foldl _ 0 (bs ++ [b]) = _
      rw [List.foldl_append]
      rfl
    have hlen : (bs ++ [b]).length = bs.length + 1 := by simp
    rw [hval, hlen, natToBytesBE]
    have hdiv : (bytesToNat bs * 256 + b) / 256 = bytesToNat bs := by omega
    have hmod : (bytesToNat bs * 256 + b) % 256 = b := by omega
    rw [hdiv, hmod, ih hbs]

theorem bit_length_fuel_spec :
    ∀ fuel n, n ≤ fuel →
      n < 2 ^ bit_length_fuel fuel n ∧ ∀ m, n < 2 ^ m → bit_length_fuel fuel n ≤ m := by
  intro fuel
  induction fuel with
  | zero =>
    intro n hn
    have : n = 0 := by omega
    subst this
    exact ⟨by norm_num, fun m _ => Nat.zero_le m⟩
  | succ fuel ih =>
    intro n hn
    rw [bit_length_fuel]
    by_cases h0 : n = 0
    · rw [if_pos h0]
      subst h0
      exact ⟨by norm_num, fun m _ => Nat.zero_le m⟩
    · rw [if_neg h0]
      obtain ⟨ih1, ih2⟩ := ih (n / 2) (by omega)
      constructor
      · have h2 : 2 ^ (bit_length_fuel fuel (n / 2) + 1) =
            2 * 2 ^ bit_length_fuel fuel (n / 2) := by
          rw [pow_succ]; ring
        omega
      · intro m hm
        have hm1 : 1 ≤ m := by
          rcases Nat.eq_zero_or_pos m with hm0 | hm0
          · subst hm0; simp at hm; omega
          · exact hm0
        obtain ⟨m', rfl⟩ : ∃ m', m = m' + 1 := ⟨m - 1, by omega⟩
        have hsplit : (2 : ℕ) ^ (m' + 1) = 2 * 2 ^ m' := by rw [pow_succ]; ring
        have hhalf : n / 2 < 2 ^ m' := by omega
        have := ih2 m' hhalf
        omega

/-- The byte count `(bit_length + 7) // 8` chosen by `int_to_text` recovers
exactly the length of a big-endian byte string with non-zero head. -/
theorem bit_length_bytes (L n : ℕ) (hL : 1 ≤ L)
    (hlow : 256 ^ (L - 1) ≤ n) (hhigh : n < 256 ^ L) :
    (bit_length n + 7) / 8 = L := by
  obtain ⟨h1, h2⟩ := bit_length_fuel_spec n n (le_refl n)
  have h1' : n < 2 ^ bit_length n := h1
  have h2' : ∀ m, n < 2 ^ m → bit_length n ≤ m := h2
  have hup : bit_length n ≤ 8 * L := by
    apply h2'
    calc n < 256 ^ L := hhigh
      _ = 2 ^ (8 * L) := by rw [pow_mul]; norm_num
  have hlow2 : 2 ^ (8 * (L - 1)) ≤ n := by
    calc (2 : ℕ) ^ (8 * (L - 1)) = 256 ^ (L - 1) := by rw [pow_mul]; norm_num
      _ ≤ n := hlow
  have hlo : 8 * (L - 1) < bit_length n := by
    by_contra hcon
    push_neg at hcon
    have hmono : (2 : ℕ) ^ bit_length n ≤ 2 ^ (8 * (L - 1)) :=
      Nat.pow_le_pow_right (by omega) hcon
    omega
  omega

/-! ### UTF-8 round trip -/

theorem utf8EncodeChar_ne_nil (c : ℕ) : utf8EncodeChar c ≠ [] := by
  unfold utf8EncodeChar
  split_ifs <;> simp

theorem utf8EncodeChar_bytes_lt (c : ℕ) (hc : c < 0x110000) :
    ∀ b ∈ utf8EncodeChar c, b < 256 := by
  intro b hb
  unfold utf8EncodeChar at hb
  split_ifs at hb with h1 h2 h3 <;> simp only [List.mem_cons, List.mem_singleton,
    List.not_mem_nil, or_false] at hb <;> omega

theorem utf8Encode_bytes_lt (s : List ℕ) (hs : ∀ c ∈ s, ValidScalar c) :
    ∀ x ∈ utf8Encode s, x < 256 := by
  induction s with
  | nil => intro x hx; simp [utf8Encode] at hx
  | cons c cs ih =>
    intro x hx
    rw [utf8Encode] at hx
    rcases List.mem_append.mp hx with h | h
    · have hc : c < 0x110000 := by
        have := hs c (List.mem_cons_self c cs)
        unfold ValidScalar at this
        omega
      exact utf8EncodeChar_bytes_lt c hc x h
    · exact ih (fun c' hc' => hs c' (List.mem_cons_of_mem c hc')) x h

theorem utf8Encode_eq_nil (s : List ℕ) : utf8Encode s = [] ↔ s = [] := by
  cases s with
  | nil => exact ⟨fun _ => rfl, fun _ => rfl⟩
  | cons c cs =>
    constructor
    · intro h
      rw [utf8Encode] at h
      exact absurd (List.append_eq_nil.mp h).1 (utf8EncodeChar_ne_nil c)
    · intro h
      exact absurd h (by simp)


/-- Decoding one character off a UTF-8 encoded scalar prepended to any byte
string recovers exactly that scalar and the remainder. -/
theorem utf8DecodeChar_encodeChar (c : ℕ) (hc : ValidScalar c) (rest : List ℕ) :
    utf8DecodeChar (utf8EncodeChar c ++ rest) = some (c, rest) := by
  have hvs : c < 0xD800 ∨ (0xE000 ≤ c ∧ c < 0x110000) := hc
  by_cases h1 : c < 0x80
  · rw [show utf8EncodeChar c = [c] from by unfold utf8EncodeChar; rw [if_pos h1],
      List.singleton_append]
    unfold utf8DecodeChar
    try dsimp only
    rw [if_pos h1]
  · by_cases h2 : c < 0x800
    · rw [show utf8EncodeChar c = [0xC0 + c / 64, 0x80 + c % 64] from by
        unfold utf8EncodeChar; rw [if_neg h1, if_pos h2]]
      show utf8DecodeChar ((0xC0 + c / 64) :: (0x80 + c % 64) :: rest) = _
      unfold utf8DecodeChar
      try dsimp only
      rw [if_neg (by omega), if_neg (by omega), if_pos (by omega)]
      try dsimp only
      rw [if_pos (by omega)]
      have harith : (0xC0 + c / 64 - 0xC0) * 64 + (0x80 + c % 64 - 0x80) = c := by omega
      rw [harith]
    · by_cases h3 : c < 0x10000
      · rw [show utf8EncodeChar c =
            [0xE0 + c / 4096, 0x80 + c / 64 % 64, 0x80 + c % 64] from by
          unfold utf8EncodeChar; rw [if_neg h1, if_neg h2, if_pos h3]]
        show utf8DecodeChar
          ((0xE0 + c / 4096) :: (0x80 + c / 64 % 64) :: (0x80 + c % 64) :: rest) = _
        unfold utf8DecodeChar
        try dsimp only
        rw [if_neg (by omega), if_neg (by omega), if_neg (by omega), if_pos (by omega)]
        try dsimp only
        rw [if_pos (by omega), if_pos (by omega)]
        have harith : (0xE0 + c / 4096 - 0xE0) * 4096 + (0x80 + c / 64 % 64 - 0x80) * 64 +
            (0x80 + c % 64 - 0x80) = c := by omega
        rw [harith]
      · have h4 : c < 0x110000 := by omega
        rw [show utf8EncodeChar c =
            [0xF0 + c / 262144, 0x80 + c / 4096 % 64, 0x80 + c / 64 % 64, 0x80 + c % 64] from by
          unfold utf8EncodeChar; rw [if_neg h1, if_neg h2, if_neg h3]]
        show utf8DecodeChar ((0xF0 + c / 262144) :: (0x80 + c / 4096 % 64) ::
          (0x80 + c / 64 % 64) :: (0x80 + c % 64) :: rest) = _
        unfold utf8DecodeChar
        try dsimp only
        rw [if_neg (by omega), if_neg (by omega), if_neg (by omega), if_neg (by omega),
          if_pos (by omega)]
        try dsimp only
        rw [if_pos (by omega), if_pos (by omega)]
        have harith : (0xF0 + c / 262144 - 0xF0) * 262144 +
            (0x80 + c / 4096 % 64 - 0x80) * 4096 +
            (0x80 + c / 64 % 64 - 0x80) * 64 + (0x80 + c % 64 - 0x80) = c := by omega
        rw [harith]

/-- `utf8DecodeChar` always consumes at least one byte. -/
theorem utf8DecodeChar_shrinks :
    ∀ (bs : List ℕ) (c : ℕ) (rest' : List ℕ),
      utf8DecodeChar bs = some (c, rest') → rest'.length < bs.length := by
  intro bs c rest' h
  match bs with
  | [] => exact Option.noConfusion h
  | b :: rest =>
    unfold utf8DecodeChar at h
    dsimp only at h
    by_cases h1 : b < 0x80
    · rw [if_pos h1] at h
      have hr : rest' = rest := (congrArg Prod.snd (Option.some.inj h)).symm
      subst hr
      simp
    · rw [if_neg h1] at h
      by_cases h2 : b < 0xC2
      · rw [if_pos h2] at h
        exact Option.noConfusion h
      · rw [if_neg h2] at h
        by_cases h3 : b < 0xE0
        · rw [if_pos h3] at h
          match rest with
          | [] => exact Option.noConfusion h
          | b1 :: rest2 =>
            try dsimp only at h
            by_cases hcont : 0x80 ≤ b1 ∧ b1 < 0xC0
            · rw [if_pos hcont] at h
              have hr : rest' = rest2 := (congrArg Prod.snd (Option.some.inj h)).symm
              subst hr
              simp only [List.length_cons]
              omega
            · rw [if_neg hcont] at h
              exact Option.noConfusion h
        · rw [if_neg h3] at h
          by_cases h4 : b < 0xF0
          · rw [if_pos h4] at h
            match rest with
            | [] => exact Option.noConfusion h
            | [b1] => exact Option.noConfusion h
            | b1 :: b2 :: rest2 =>
              try dsimp only at h
              by_cases hcont : (0x80 ≤ b1 ∧ b1 < 0xC0) ∧ (0x80 ≤ b2 ∧ b2 < 0xC0)
              · rw [if_pos hcont] at h
                by_cases hval : 0x800 ≤ (b - 0xE0) * 4096 + (b1 - 0x80) * 64 + (b2 - 0x80) ∧
                    ¬ (0xD800 ≤ (b - 0xE0) * 4096 + (b1 - 0x80) * 64 + (b2 - 0x80) ∧
                      (b - 0xE0) * 4096 + (b1 - 0x80) * 64 + (b2 - 0x80) < 0xE000)
                · rw [if_pos hval] at h
                  have hr : rest' = rest2 := (congrArg Prod.snd (Option.some.inj h)).symm
                  subst hr
                  simp only [List.length_cons]
                  omega
                · rw [if_neg hval] at h
                  exact Option.noConfusion h
              · rw [if_neg hcont] at h
                exact Option.noConfusion h
          · rw [if_neg h4] at h
            by_cases h5 : b < 0xF5
            · rw [if_pos h5] at h
              match rest with
              | [] => exact Option.noConfusion h
              | [b1] => exact Option.noConfusion h
              | [b1, b2] => exact Option.noConfusion h
              | b1 :: b2 :: b3 :: rest2 =>
                try dsimp only at h
                by_cases hcont : (0x80 ≤ b1 ∧ b1 < 0xC0) ∧ (0x80 ≤ b2 ∧ b2 < 0xC0) ∧
                    (0x80 ≤ b3 ∧ b3 < 0xC0)
                · rw [if_pos hcont] at h
                  by_cases hval : 0x10000 ≤
                      (b - 0xF0) * 262144 + (b1 - 0x80) * 4096 + (b2 - 0x80) * 64 + (b3 - 0x80) ∧
                      (b - 0xF0) * 262144 + (b1 - 0x80) * 4096 + (b2 - 0x80) * 64 + (b3 - 0x80) <
                        0x110000
                  · rw [if_pos hval] at h
                    have hr : rest' = rest2 := (congrArg Prod.snd (Option.some.inj h)).symm
                    subst hr
                    simp only [List.length_cons]
                    omega
                  · rw [if_neg hval] at h
                    exact Option.noConfusion h
                · rw [if_neg hcont] at h
                  exact Option.noConfusion h
            · rw [if_neg h5] at h
              exact Option.noConfusion h

theorem utf8Decode_fuel_nil (fuel : ℕ) : utf8Decode_fuel fuel [] = some [] := by
  cases fuel <;> rfl

/-- The fuel of `utf8Decode_fuel` is irrelevant once it covers the byte
count (one decoded character consumes at least one byte). -/
theorem utf8Decode_fuel_congr :
    ∀ (len fuel fuel' : ℕ) (bs : List ℕ), bs.length ≤ len → bs.length ≤ fuel →
      bs.length ≤ fuel' → utf8Decode_fuel fuel bs = utf8Decode_fuel fuel' bs := by
  intro len
  induction len with
  | zero =>
    intro fuel fuel' bs h0 _ _
    have : bs = [] := List.eq_nil_of_length_eq_zero (by omega)
    subst this
    rw [utf8Decode_fuel_nil, utf8Decode_fuel_nil]
  | succ len ihlen =>
    intro fuel fuel' bs hlen hf hf'
    match bs with
    | [] => rw [utf8Decode_fuel_nil, utf8Decode_fuel_nil]
    | b :: rest =>
      have hbs1 : 1 ≤ (b :: rest).length := by simp
      obtain ⟨f, rfl⟩ : ∃ f, fuel = f + 1 := ⟨fuel - 1, by simp at hf; omega⟩
      obtain ⟨f', rfl⟩ : ∃ f', fuel' = f' + 1 := ⟨fuel' - 1, by simp at hf'; omega⟩
      rw [utf8Decode_fuel, utf8Decode_fuel]
      cases hdc : utf8DecodeChar (b :: rest) with
      | none => rfl
      | some p =>
        obtain ⟨c, rest'⟩ := p
        have hs := utf8DecodeChar_shrinks (b :: rest) c rest' hdc
        have hr : rest'.length ≤ len := by
          simp only [List.length_cons] at hs hlen
          omega
        dsimp only
        rw [ihlen f f' rest' hr (by simp only [List.length_cons] at hs hf; omega)
          (by simp only [List.length_cons] at hs hf'; omega)]

/-- UTF-8 decode is a left inverse of UTF-8 encode on scalar-value texts. -/
theorem utf8Decode_utf8Encode (s : List ℕ) (hs : ∀ c ∈ s, ValidScalar c) :
    utf8Decode (utf8Encode s) = some s := by
  induction s with
  | nil => rfl
  | cons c cs ih =>
    unfold utf8Decode
    rw [utf8Encode]
    have hchar1 : 1 ≤ (utf8EncodeChar c).length := by
      cases hE : utf8EncodeChar c with
      | nil => exact absurd hE (utf8EncodeChar_ne_nil c)
      | cons x xs => simp
    obtain ⟨f, hf⟩ : ∃ f, (utf8EncodeChar c ++ utf8Encode cs).length = f + 1 := by
      refine ⟨(utf8EncodeChar c ++ utf8Encode cs).length - 1, ?_⟩
      rw [List.length_append]
      omega
    obtain ⟨x, xs, hsplit⟩ : ∃ x xs, utf8EncodeChar c ++ utf8Encode cs = x :: xs := by
      cases hE : utf8EncodeChar c with
      | nil => exact absurd hE (utf8EncodeChar_ne_nil c)
      | cons x xs => exact ⟨x, xs ++ utf8Encode cs, by simp⟩
    rw [hf, hsplit, utf8Decode_fuel, ← hsplit,
      utf8DecodeChar_encodeChar c (hs c (List.mem_cons_self c cs)) (utf8Encode cs)]
    dsimp only
    have hlen : (utf8Encode cs).length ≤ f := by
      rw [List.length_append] at hf
      omega
    rw [utf8Decode_fuel_congr (utf8Encode cs).length f (utf8Encode cs).length
      (utf8Encode cs) le_rfl hlen le_rfl]
    have ih' := ih (fun c' hc' => hs c' (List.mem_cons_of_mem c hc'))
    unfold utf8Decode at ih'
    rw [ih']
    rfl

/-! ### Claim C10: codec round trip -/

/-- C10: for every string (sequence of Unicode scalar values) whose UTF-8
byte encoding is either empty or begins with a nonzero byte,
`int_to_text(text_to_int(s)) = s`; for a string whose UTF-8 encoding begins
with a zero byte the round-trip loses the leading zero bytes, since the
integer-to-bytes direction uses the minimal byte length: a leading U+0000
(encoded as the single byte 0) contributes nothing to the integer. -/
theorem claim_C10_codec_roundtrip :
    (∀ s : List ℕ, (∀ c ∈ s, ValidScalar c) →
      (utf8Encode s = [] ∨ (utf8Encode s).head? ≠ some 0) →
      int_to_text (text_to_int s) = s) ∧
    (∀ t : List ℕ, text_to_int (0 :: t) = text_to_int t) := by
  constructor
  · intro s hs hhead
    rcases hE : utf8Encode s with _ | ⟨b, tl⟩
    · have hsnil : s = [] := (utf8Encode_eq_nil s).mp hE
      subst hsnil
      decide
    · have hb0 : b ≠ 0 := by
        rcases hhead with hnil | hne
        · rw [hE] at hnil
          exact absurd hnil (by simp)
        · intro hb
          rw [hE, hb] at hne
          exact hne rfl
      have hbytes : ∀ x ∈ utf8Encode s, x < 256 := utf8Encode_bytes_lt s hs
      rw [hE] at hbytes
      have hhigh : bytesToNat (b :: tl) < 256 ^ (b :: tl).length := bytesToNat_lt _ hbytes
      have hlow : 256 ^ tl.length ≤ bytesToNat (b :: tl) := bytesToNat_head_ge b tl hb0
      have hpos : 1 ≤ bytesToNat (b :: tl) :=
        le_trans (Nat.one_le_pow _ _ (by omega)) hlow
      unfold text_to_int int_to_text
      rw [hE]
      rw [if_neg (by omega)]
      have htoNat : (↑(bytesToNat (b :: tl)) : ℤ).toNat = bytesToNat (b :: tl) :=
        Int.toNat_natCast _
      rw [htoNat]
      have hnum : (bit_length (bytesToNat (b :: tl)) + 7) / 8 = (b :: tl).length := by
        apply bit_length_bytes _ _ (by simp)
        · simpa using hlow
        · exact hhigh
      rw [hnum, natToBytesBE_bytesToNat (b :: tl) hbytes, ← hE,
        utf8Decode_utf8Encode s hs]
  · intro t
    unfold text_to_int
    rw [utf8Encode]
    rw [show utf8EncodeChar 0 = [0] from rfl, List.singleton_append, bytesToNat_cons]
    omega

/-- Witness for C10: the two-character text "hi" (scalar values 104, 105)
round-trips; prepending U+0000 does not change the encoded integer. -/
theorem claim_C10_witness :
    int_to_text (text_to_int [104, 105]) = [104, 105] ∧
      text_to_int (0 :: [104, 105]) = text_to_int [104, 105] :=
  ⟨claim_C10_codec_roundtrip.1 [104, 105] (by decide) (by decide),
    claim_C10_codec_roundtrip.2 [104, 105]⟩
